import Mathlib

/-!
Verification of the chunking / pipeline-orchestration logic of the
sarvam-explorer repository (`src/sarvam_client.py`), as a shallow embedding.

Texts are `List Char`; audio durations (probed by ffprobe) are `ℚ`;
external collaborators (STT, TTS, model output parsing inputs) are
explicit oracle parameters.  Machine floats never enter arithmetic in the
source pipeline (durations are only compared, truncated by `int(...)`,
and subtracted by ffmpeg window extraction), so `ℚ` is a faithful carrier.
-/

set_option maxRecDepth 4000

/-! ## Character classes used by `_chunk_text` (sarvam_client.py lines 36-61) -/

/-- Whitespace, as matched by the `\s` class of the sentence-split regex and
by `str.strip()` (ASCII subset). -/
def isWsChar (c : Char) : Bool :=
  c = ' ' || c = '\t' || c = '\n' || c = '\r' || c = '\x0b' || c = '\x0c'

/-- Sentence-boundary punctuation of the lookbehind `(?<=[.!?।])`. -/
def isSentencePunct (c : Char) : Bool :=
  c = '.' || c = '!' || c = '?' || c = '।'

/-- Python `str.strip()`: drop leading and trailing whitespace. -/
def stripWs (l : List Char) : List Char :=
  ((l.dropWhile isWsChar).reverse.dropWhile isWsChar).reverse

/-- Does the reversed accumulator end (in text order) with sentence
punctuation?  Mirrors the regex lookbehind: the previous character. -/
def prevIsPunct (acc : List Char) : Bool :=
  match acc with
  | p :: _ => isSentencePunct p
  | [] => false

/-- `re.split(r"(?<=[.!?।])\s+", text)`: split at each maximal whitespace
run that is preceded by sentence punctuation.  `acc` is the current piece,
reversed; `fuel ≥` remaining length makes the recursion structural. -/
def splitSentAux : ℕ → List Char → List Char → List (List Char)
  | _, [], acc => [acc.reverse]
  | 0, l, acc => [acc.reverse ++ l]
  | fuel + 1, c :: rest, acc =>
    if prevIsPunct acc && isWsChar c then
      acc.reverse :: splitSentAux fuel (rest.dropWhile isWsChar) []
    else
      splitSentAux fuel rest (c :: acc)

/-- The sentence list of `_chunk_text` (line 41). -/
def splitSentences (t : List Char) : List (List Char) :=
  splitSentAux t.length t []

/-- `for i in range(0, len(sentence), max_chars): chunks.append(sentence[i:i+max_chars])`
(lines 52-53), for `0 < m`; fuel-driven (fuel ≥ length suffices). -/
def hardSplitAux (m : ℕ) : ℕ → List Char → List (List Char)
  | _, [] => []
  | 0, l => [l]
  | fuel + 1, l => l.take m :: hardSplitAux m fuel (l.drop m)

/-- Hard character-window split of an over-long sentence. -/
def hardSplit (m : ℕ) (l : List Char) : List (List Char) :=
  hardSplitAux m l.length l

/-- The accumulator loop of `_chunk_text` (lines 45-59), sentence by
sentence; returns the emitted chunks including the final flush. -/
def chunkLoop (m : ℕ) : List (List Char) → List Char → List (List Char)
  | [], current => if current.isEmpty then [] else [current]
  | s :: rest, current =>
    if current.length + s.length + 1 ≤ m then
      chunkLoop m rest (stripWs (current ++ ' ' :: s))
    else
      (if current.isEmpty then [] else [current]) ++
        (if m < s.length then hardSplit m s ++ chunkLoop m rest []
         else chunkLoop m rest s)

/-- `_chunk_text(text, max_chars)` (sarvam_client.py lines 36-61). -/
def chunkText (t : List Char) (m : ℕ) : List (List Char) :=
  if t.length ≤ m then [t] else chunkLoop m (splitSentences t) []

/-- One way of re-joining chunks: between each adjacent pair insert either
nothing or a single space, as selected by the boolean list.  Used to state
the reassembly guarantee of the spec ("restoring a single joining space at
each sentence-pack boundary"). -/
def joinSel : List Bool → List (List Char) → List Char
  | _, [] => []
  | _, [c] => c
  | [], c :: cs => c ++ joinSel [] cs
  | b :: bs, c :: cs => c ++ (if b then [' '] else []) ++ joinSel bs cs

/-! ## Audio segmentation and transcription (sarvam_client.py lines 82-160) -/

/-- Python `int(q)` for a nonnegative rational (truncation toward zero,
which is the floor for the nonnegative ffprobe durations; `int(duration)`
is only reached with `duration > 30`). -/
def pyInt (q : ℚ) : ℕ :=
  ⌊q⌋.toNat

/-- Python `range(0, stop, step)` (ascending, step `> 0`), fuel-driven:
each iteration advances `cur` by `step ≥ 1`, so `fuel = stop` suffices
from `cur = 0`. -/
def pyRangeAux (stop step : ℕ) : ℕ → ℕ → List ℕ
  | 0, _ => []
  | fuel + 1, cur =>
    if 0 < step ∧ cur < stop then cur :: pyRangeAux stop step fuel (cur + step)
    else []

/-- `list(range(0, stop, step))`. -/
def pyRange (stop step : ℕ) : List ℕ :=
  pyRangeAux stop step stop 0

/-- `starts = list(range(0, int(duration), CHUNK_SECONDS))` (line 126),
with the chunk width left as a parameter `W` (the source fixes `W = 25`). -/
def winStarts (d : ℚ) (W : ℕ) : List ℕ :=
  pyRange (pyInt d) W

/-- The window plan materialized by the chunk loop (lines 131-145): window
`i` starts at `starts[i]` and `ffmpeg -ss start -t W` extracts
`min W (d - start)` seconds of the `d`-second file. -/
def windows (d : ℚ) (W : ℕ) : List (ℚ × ℚ) :=
  (winStarts d W).map (fun s : ℕ => ((s : ℚ), min (W : ℚ) (d - (s : ℚ))))

/-- `truncated = duration > MAX_DURATION; if truncated: duration = MAX_DURATION`
(lines 93-108): the duration all later decisions use. -/
def effectiveDuration (D : ℚ) (M : ℕ) : ℚ :=
  if (M : ℚ) < D then (M : ℚ) else D

/-- Response of one `sarvam.speech_to_text.transcribe` call:
`resp.transcript` and `resp.language_code`, each possibly `None`. -/
structure SttResp where
  transcript : Option (List Char)
  language_code : Option (List Char)

/-- `{"transcript": ..., "language_code": ..., "truncated": ...}`. -/
structure TranscriptionResult where
  transcript : List Char
  language_code : List Char
  truncated : Bool
deriving DecidableEq

/-- Python truthiness of an optional string: `None` and `""` are falsy. -/
def truthyOpt : Option (List Char) → Bool
  | none => false
  | some s => !s.isEmpty

/-- `x or hint` for an optional string `x`. -/
def orElseHint (x : Option (List Char)) (hint : List Char) : List Char :=
  match x with
  | some l => if l.isEmpty then hint else l
  | none => hint

/-- The chunk loop of lines 131-150 restricted to its result state:
`transcripts` (appended when `text` is truthy) and `detected_lang`
(assigned on `not detected_lang and lang`).  `oracle i` is the STT
response for chunk `i`. -/
def chunkFold (oracle : ℕ → SttResp) :
    List ℕ → List (List Char) → Option (List Char) → List (List Char) × Option (List Char)
  | [], ts, dl => (ts, dl)
  | i :: rest, ts, dl =>
    chunkFold oracle rest
      (if ((oracle i).transcript.getD []).isEmpty then ts
       else ts ++ [(oracle i).transcript.getD []])
      (if !truthyOpt dl && truthyOpt (oracle i).language_code then (oracle i).language_code
       else dl)

/-- `transcribe_audio` (sarvam_client.py lines 82-160), with the external
STT capability as `oracle` (indexed by chunk number; the direct short-clip
path makes its single call at index 0), the probed duration `D`, and the
configured `MAX_DURATION = M`, `CHUNK_SECONDS = W`. -/
def transcribe_audio (oracle : ℕ → SttResp) (D : ℚ) (M W : ℕ)
    (hint : List Char) : TranscriptionResult :=
  if effectiveDuration D M ≤ 30 then
    { transcript := (oracle 0).transcript.getD []
      language_code := orElseHint (oracle 0).language_code hint
      truncated := decide ((M : ℚ) < D) }
  else
    { transcript := List.intercalate [' ']
        (chunkFold oracle
          (List.range (winStarts (effectiveDuration D M) W).length) [] none).1
      language_code := orElseHint
        (chunkFold oracle
          (List.range (winStarts (effectiveDuration D M) W).length) [] none).2 hint
      truncated := decide ((M : ℚ) < D) }

/-- Number of `speech_to_text.transcribe` calls `transcribe_audio` issues:
one on the direct path, one per window start on the chunked path. -/
def transcribeCalls (D : ℚ) (M W : ℕ) : ℕ :=
  if effectiveDuration D M ≤ 30 then 1
  else (winStarts (effectiveDuration D M) W).length

/-- Per-window transcript texts (`resp.transcript or ""`) in ascending
window order; the declarative side of the reassembly claim. -/
def windowTranscripts (oracle : ℕ → SttResp) (n : ℕ) : List (List Char) :=
  (List.range n).map (fun i => (oracle i).transcript.getD [])

/-- First truthy element of a list of optional strings (first-wins
detected-language policy, declaratively). -/
def firstTruthy : List (Option (List Char)) → Option (List Char)
  | [] => none
  | o :: rest => if truthyOpt o then o else firstTruthy rest

/-! ## Analysis normalization (sarvam_client.py lines 194-209)

`json.loads` is the Python standard library; it is modelled here by an
executable parser `parseJson` for the JSON fragment this pipeline
exercises (null / booleans / integers / strings with basic escapes /
arrays / objects, with JSON whitespace).  The repository code under
verification is the fence stripping and the success-or-fallback shape. -/

/-- A parsed JSON value (numbers restricted to integers in the model). -/
inductive Json where
  | jnull : Json
  | jbool : Bool → Json
  | jnum : Int → Json
  | jstr : List Char → Json
  | jarr : List Json → Json
  | jobj : List (List Char × Json) → Json

/-- JSON whitespace (`json.loads` skips space, tab, newline, return). -/
def isJsonWs (c : Char) : Bool :=
  c = ' ' || c = '\t' || c = '\n' || c = '\r'

/-- Skip JSON whitespace. -/
def skipJsonWs (l : List Char) : List Char :=
  l.dropWhile isJsonWs

/-- Body of a JSON string after the opening quote: returns the decoded
content and the input after the closing quote. -/
def parseStrBody : List Char → List Char → Option (List Char × List Char)
  | [], _ => none
  | c :: rest, acc =>
    if c = '"' then some (acc.reverse, rest)
    else if c = '\\' then
      match rest with
      | [] => none
      | e :: rest2 =>
        if e = '"' then parseStrBody rest2 ('"' :: acc)
        else if e = '\\' then parseStrBody rest2 ('\\' :: acc)
        else if e = '/' then parseStrBody rest2 ('/' :: acc)
        else if e = 'n' then parseStrBody rest2 ('\n' :: acc)
        else if e = 't' then parseStrBody rest2 ('\t' :: acc)
        else none
    else parseStrBody rest (c :: acc)

/-- Decimal digit? -/
def isDigitChar (c : Char) : Bool :=
  '0' ≤ c && c ≤ '9'

/-- Value of a nonempty digit string. -/
def digitsToNat (l : List Char) : ℕ :=
  l.foldl (fun acc c => acc * 10 + (c.toNat - 48)) 0

/-- Opening brace character (written by code so braces never appear in
string literals). -/
def lbrace : Char := Char.ofNat 123

/-- Closing brace character. -/
def rbrace : Char := Char.ofNat 125

/-- Parser task: a value, the element loop of an array, or the member
loop of an object (with accumulators). -/
inductive PTask where
  | pval : List Char → PTask
  | pelems : List Char → List Json → PTask
  | pmembers : List Char → List (List Char × Json) → PTask

/-- Recursive-descent JSON parser, structural on fuel. -/
def parseGo : ℕ → PTask → Option (Json × List Char)
  | 0, _ => none
  | fuel + 1, PTask.pval l =>
    match skipJsonWs l with
    | [] => none
    | c :: rest =>
      if c = 'n' then
        if "ull".data.isPrefixOf rest then some (Json.jnull, rest.drop 3) else none
      else if c = 't' then
        if "rue".data.isPrefixOf rest then some (Json.jbool true, rest.drop 3) else none
      else if c = 'f' then
        if "alse".data.isPrefixOf rest then some (Json.jbool false, rest.drop 4) else none
      else if c = '"' then
        match parseStrBody rest [] with
        | some (s, r) => some (Json.jstr s, r)
        | none => none
      else if c = '[' then
        match skipJsonWs rest with
        | ']' :: r2 => some (Json.jarr [], r2)
        | r1 => parseGo fuel (PTask.pelems r1 [])
      else if c = lbrace then
        match skipJsonWs rest with
        | c2 :: r2 => if c2 = rbrace then some (Json.jobj [], r2)
                      else parseGo fuel (PTask.pmembers (c2 :: r2) [])
        | [] => none
      else if c = '-' then
        match rest.takeWhile isDigitChar with
        | [] => none
        | ds => some (Json.jnum (-(digitsToNat ds : ℤ)), rest.dropWhile isDigitChar)
      else if isDigitChar c then
        some (Json.jnum (digitsToNat ((c :: rest).takeWhile isDigitChar)),
              (c :: rest).dropWhile isDigitChar)
      else none
  | fuel + 1, PTask.pelems l acc =>
    match parseGo fuel (PTask.pval l) with
    | none => none
    | some (j, r) =>
      match skipJsonWs r with
      | ',' :: r2 => parseGo fuel (PTask.pelems r2 (j :: acc))
      | ']' :: r2 => some (Json.jarr (j :: acc).reverse, r2)
      | _ => none
  | fuel + 1, PTask.pmembers l acc =>
    match skipJsonWs l with
    | [] => none
    | c :: rest =>
      if c = '"' then
        match parseStrBody rest [] with
        | none => none
        | some (k, r) =>
          match skipJsonWs r with
          | ':' :: r2 =>
            match parseGo fuel (PTask.pval r2) with
            | none => none
            | some (v, r3) =>
              match skipJsonWs r3 with
              | ',' :: r5 => parseGo fuel (PTask.pmembers r5 ((k, v) :: acc))
              | c5 :: r5 => if c5 = rbrace then some (Json.jobj ((k, v) :: acc).reverse, r5)
                            else none
              | [] => none
          | _ => none
      else none

/-- `json.loads` on a complete document (model): parse one value and
require only whitespace to remain. -/
def parseJson (l : List Char) : Option Json :=
  match parseGo ((l.length + 1) * 4) (PTask.pval l) with
  | some (j, rest) => if (skipJsonWs rest).isEmpty then some j else none
  | none => none

/-- The backtick character (written by code). -/
def fenceChar : Char := Char.ofNat 96

/-- A triple-backtick fence marker. -/
def fenceSeq : List Char := [fenceChar, fenceChar, fenceChar]

/-- Python `s.split(sep)` for a fixed nonempty separator: non-overlapping
matches, left to right; fuel ≥ length makes the recursion structural. -/
def splitSeqAux (sep : List Char) : ℕ → List Char → List Char → List (List Char)
  | _, [], acc => [acc.reverse]
  | 0, l, acc => [acc.reverse ++ l]
  | fuel + 1, c :: rest, acc =>
    if sep.isPrefixOf (c :: rest) then
      acc.reverse :: splitSeqAux sep fuel ((c :: rest).drop sep.length) []
    else
      splitSeqAux sep fuel rest (c :: acc)

/-- `s.split(sep)`. -/
def splitSeq (sep l : List Char) : List (List Char) :=
  splitSeqAux sep l.length l []

/-- Fence stripping of `analyse_transcript` (lines 197-204): if the text
starts with a triple backtick, keep `parts[1]`, drop a leading `json`
tag, and strip.  (`parts[1]` always exists when the separator is a
prefix; `getD` models the indexed access.) -/
def stripFences (raw : List Char) : List Char :=
  if fenceSeq.isPrefixOf raw then
    stripWs
      (if "json".data.isPrefixOf ((splitSeq fenceSeq raw).getD 1 []) then
        ((splitSeq fenceSeq raw).getD 1 []).drop 4
      else (splitSeq fenceSeq raw).getD 1 [])
  else raw

/-- The normalization portion of `analyse_transcript` (lines 194-209):
strip the model output, strip fences, try to parse; on failure return
the single-field fallback carrying `raw`. -/
def analyse_normalize (content : List Char) : Json :=
  match parseJson (stripFences (stripWs content)) with
  | some j => j
  | none => Json.jobj [("raw_analysis".data, Json.jstr (stripWs content))]

/-- Does a parsed value have exactly the six analysis fields the prompt
requests? -/
def sixKeys : List (List Char) :=
  ["summary".data, "language_detected".data, "key_entities".data,
   "topics".data, "tone".data, "tone_explanation".data]

/-- The six-field structured-record shape. -/
def isSixField : Json → Bool
  | Json.jobj fs =>
    fs.length = 6 && sixKeys.all (fun k => fs.any (fun kv => kv.1 == k))
  | _ => false

/-- The single-field fallback shape `{"raw_analysis": <string>}`. -/
def isFallback : Json → Bool
  | Json.jobj fs =>
    match fs with
    | [(k, Json.jstr _)] => k == "raw_analysis".data
    | _ => false
  | _ => false

/-! ## Speech synthesis (sarvam_client.py lines 241-281)

The external TTS capability is `tts : List Char → Option (List ℕ)` (a
decoded audio segment per chunk, or a failure).  The only write to
`outputPath` in the source is the final `combined.export`, so written
content is modelled as the payload of a successful result: an `Option`
result of `none` is a propagated exception with nothing written. -/

/-- The per-chunk loop of `text_to_speech` (lines 252-274): a failed call
propagates immediately; successes are collected in order. -/
def ttsLoop (tts : List Char → Option (List ℕ)) :
    List (List Char) → List (List ℕ) → Option (List (List ℕ))
  | [], segs => some segs
  | c :: rest, segs =>
    match tts c with
    | some a => ttsLoop tts rest (segs ++ [a])
    | none => none

/-- `text_to_speech(text, language_code, output_path)` (lines 241-281):
chunk to ≤ 500 chars, synthesize each chunk, concatenate
(`segments[0]` then `+=` in order), export once, return the path.
`some (path, audio)` is the successful write of `audio` to `path`;
`none` is a propagated failure with nothing written. -/
def text_to_speech (tts : List Char → Option (List ℕ)) (text : List Char)
    (output_path : List Char) : Option (List Char × List ℕ) :=
  match ttsLoop tts (chunkText text 500) [] with
  | none => none
  | some segs =>
    match segs with
    | s :: restSegs => some (output_path, restSegs.foldl (fun a b => a ++ b) s)
    | [] => none

/-! ## Temporary-file lifecycle of `transcribe_audio` (lines 94-160)

The `try/finally` around the body, the `NamedTemporaryFile` trimmed clip,
and the `TemporaryDirectory` holding per-window excerpts, with the
external ffmpeg/STT calls as fallible oracles.  The second component of
the result is the set of temporary files still on disk after the call. -/

/-- A temporary file created by `transcribe_audio`. -/
inductive TFile where
  | trimmed : TFile
  | chunkf : ℕ → TFile
deriving DecidableEq

/-- An error exiting the body of `transcribe_audio`. -/
inductive TErr where
  | ffmpegErr : TErr
  | sttErr : TErr
deriving DecidableEq

/-- Failure behavior of the external calls in one invocation. -/
structure STTWorld where
  trimOk : Bool
  extractOk : ℕ → Bool
  sttOk : ℕ → Bool

/-- Chunk loop of lines 131-150 restricted to file effects: each
iteration writes `chunk_i` into the temporary directory, then the ffmpeg
extract or the STT call may raise. -/
def chunkLoopFS (w : STTWorld) : List ℕ → List TFile → Except TErr Unit × List TFile
  | [], fs => (Except.ok (), fs)
  | i :: rest, fs =>
    if !w.extractOk i then (Except.error TErr.ffmpegErr, fs ++ [TFile.chunkf i])
    else if !w.sttOk i then (Except.error TErr.sttErr, fs ++ [TFile.chunkf i])
    else chunkLoopFS w rest (fs ++ [TFile.chunkf i])

/-- `TemporaryDirectory` context manager: on exit (normal or exceptional)
every file inside the directory is removed. -/
def withTmpDir (r : Except TErr Unit × List TFile) : Except TErr Unit × List TFile :=
  (r.1, r.2.filter (fun f => match f with | TFile.chunkf _ => false | _ => true))

/-- The file lifecycle of `transcribe_audio` (lines 94-160).  The trimmed
clip is created before the trimming ffmpeg call (which may raise); the
body may raise at any external call; the `finally` block unlinks the
trimmed clip with `missing_ok=True` (removal in the model, a no-op when
absent, never raising). -/
def transcribe_fs (w : STTWorld) (D : ℚ) (M W : ℕ) : Except TErr Unit × List TFile :=
  let body : Except TErr Unit × List TFile :=
    if decide ((M : ℚ) < D) && !w.trimOk then (Except.error TErr.ffmpegErr, [TFile.trimmed])
    else
      if effectiveDuration D M ≤ 30 then
        ((if w.sttOk 0 then Except.ok () else Except.error TErr.sttErr),
         if (M : ℚ) < D then [TFile.trimmed] else [])
      else
        withTmpDir (chunkLoopFS w
          (List.range (winStarts (effectiveDuration D M) W).length)
          (if (M : ℚ) < D then [TFile.trimmed] else []))
  (body.1, body.2.filter (fun f => f ≠ TFile.trimmed))

/-! ## Concrete inputs used by counterexamples and witnesses -/

/-- A text whose two sentences are separated by two spaces. -/
def tC3 : List Char := "ab.  cd".data

/-- A raw model output that parses as JSON but is not the six-field
record: `{"foo": 1}` (braces escaped). -/
def c7in : List Char := "\x7b\"foo\": 1\x7d".data

/-- STT oracle for the implicit-claim check: window 0 has an empty
transcript but reports a language; window 1 has text and a different
language. -/
def oracleC10 : ℕ → SttResp := fun i =>
  if i = 0 then { transcript := some [], language_code := some "hi-IN".data }
  else { transcript := some "hello".data, language_code := some "ta-IN".data }

/-- A uniform STT oracle used to witness the chunked-path reassembly. -/
def oracleC5 : ℕ → SttResp := fun _ =>
  { transcript := some ['a'], language_code := some ['e', 'n'] }

/-- The non-whitespace characters of a text, in order. -/
def keepNonWs (l : List Char) : List Char :=
  l.filter (fun c => !isWsChar c)

/-! ## Lemmas: text chunking -/

theorem punct_not_ws {c : Char} (h : isSentencePunct c = true) : isWsChar c = false := by
  simp only [isSentencePunct, Bool.or_eq_true, decide_eq_true_eq] at h
  rcases h with ((h | h) | h) | h <;> subst h <;> rfl

theorem keepNonWs_dropWhile (l : List Char) :
    keepNonWs (l.dropWhile isWsChar) = keepNonWs l := by
  induction l with
  | nil => rfl
  | cons c l ih =>
    by_cases hc : isWsChar c
    · simp [keepNonWs, List.dropWhile_cons, hc] at ih ⊢
      exact ih
    · simp [List.dropWhile_cons, hc]

theorem keepNonWs_reverse (l : List Char) :
    keepNonWs l.reverse = (keepNonWs l).reverse := by
  simp [keepNonWs, List.filter_reverse]

theorem keepNonWs_append (l₁ l₂ : List Char) :
    keepNonWs (l₁ ++ l₂) = keepNonWs l₁ ++ keepNonWs l₂ := by
  simp [keepNonWs, List.filter_append]

theorem keepNonWs_stripWs (l : List Char) :
    keepNonWs (stripWs l) = keepNonWs l := by
  unfold stripWs
  rw [keepNonWs_reverse, keepNonWs_dropWhile, keepNonWs_reverse,
    List.reverse_reverse, keepNonWs_dropWhile]

theorem keepNonWs_ws_cons {c : Char} (hc : isWsChar c = true) (l : List Char) :
    keepNonWs (c :: l) = keepNonWs l := by
  simp [keepNonWs, hc]

theorem splitSentAux_join_keepNonWs :
    ∀ (fuel : ℕ) (l acc : List Char),
      keepNonWs (splitSentAux fuel l acc).flatten = keepNonWs (acc.reverse ++ l) := by
  intro fuel
  induction fuel with
  | zero =>
    intro l acc
    cases l <;> simp [splitSentAux]
  | succ fuel ih =>
    intro l acc
    cases l with
    | nil => simp [splitSentAux]
    | cons c rest =>
      by_cases hb : (prevIsPunct acc && isWsChar c) = true
      · have hc : isWsChar c = true := (Bool.and_eq_true _ _ |>.mp hb).2
        simp only [splitSentAux, hb, if_pos, List.flatten_cons]
        rw [keepNonWs_append, ih]
        simp only [List.reverse_nil, List.nil_append]
        rw [keepNonWs_dropWhile, keepNonWs_append, keepNonWs_ws_cons hc]
      · simp only [splitSentAux, hb, if_neg, Bool.not_eq_true]
        rw [ih, List.reverse_cons, List.append_assoc, List.singleton_append]

theorem splitSentAux_all_ws :
    ∀ (fuel : ℕ) (l acc : List Char),
      (∀ x ∈ acc, isWsChar x = true) → (∀ x ∈ l, isWsChar x = true) →
      splitSentAux fuel l acc = [acc.reverse ++ l] := by
  intro fuel
  induction fuel with
  | zero =>
    intro l acc _ _
    cases l <;> simp [splitSentAux]
  | succ fuel ih =>
    intro l acc hacc hl
    cases l with
    | nil => simp [splitSentAux]
    | cons c rest =>
      have hpv : prevIsPunct acc = false := by
        cases acc with
        | nil => rfl
        | cons p acc' =>
          have hp : isWsChar p = true := hacc p (List.mem_cons_self _ _)
          simp only [prevIsPunct]
          by_cases hq : isSentencePunct p = true
          · rw [punct_not_ws hq] at hp; exact absurd hp (by simp)
          · simpa using hq
      simp only [splitSentAux, hpv, Bool.false_and, Bool.false_eq_true, if_neg,
        not_false_iff]
      rw [ih rest (c :: acc)
        (by intro x hx; rcases hx with _ | hx
            · exact hl c (List.mem_cons_self _ _)
            · exact hacc x (by assumption))
        (fun x hx => hl x (List.mem_cons_of_mem _ hx))]
      rw [List.reverse_cons, List.append_assoc, List.singleton_append]

theorem hardSplitAux_join (m : ℕ) :
    ∀ (fuel : ℕ) (l : List Char), (hardSplitAux m fuel l).flatten = l := by
  intro fuel
  induction fuel with
  | zero => intro l; cases l <;> simp [hardSplitAux]
  | succ fuel ih =>
    intro l
    cases l with
    | nil => simp [hardSplitAux]
    | cons c rest =>
      simp only [hardSplitAux, List.flatten_cons, ih, List.take_append_drop]

theorem hardSplitAux_length_le (m : ℕ) (hm : 0 < m) :
    ∀ (fuel : ℕ) (l : List Char), l.length ≤ fuel →
      ∀ p ∈ hardSplitAux m fuel l, p.length ≤ m := by
  intro fuel
  induction fuel with
  | zero =>
    intro l hl p hp
    have : l = [] := List.eq_nil_of_length_eq_zero (Nat.le_zero.mp hl)
    subst this
    simp [hardSplitAux] at hp
  | succ fuel ih =>
    intro l hl p hp
    cases l with
    | nil => simp [hardSplitAux] at hp
    | cons c rest =>
      simp only [hardSplitAux, List.mem_cons] at hp
      rcases hp with hp | hp
      · subst hp
        exact le_trans (List.length_take_le _ _) le_rfl
      · refine ih _ ?_ p hp
        rw [List.length_drop]
        simp only [List.length_cons] at hl ⊢
        have hm1 : 1 ≤ m := hm
        omega

theorem hardSplit_ne_nil {m : ℕ} {l : List Char} (hl : l ≠ []) :
    hardSplit m l ≠ [] := by
  cases l with
  | nil => exact absurd rfl hl
  | cons c rest => simp [hardSplit, hardSplitAux]

theorem dropWhile_length_le (p : Char → Bool) (l : List Char) :
    (l.dropWhile p).length ≤ l.length := by
  induction l with
  | nil => simp
  | cons c rest ih =>
    by_cases hc : p c
    · simp only [List.dropWhile_cons, hc, if_pos, List.length_cons]
      omega
    · simp [List.dropWhile_cons, hc]

theorem stripWs_length_le (l : List Char) : (stripWs l).length ≤ l.length := by
  unfold stripWs
  calc ((l.dropWhile isWsChar).reverse.dropWhile isWsChar).reverse.length
      = ((l.dropWhile isWsChar).reverse.dropWhile isWsChar).length := List.length_reverse _
    _ ≤ (l.dropWhile isWsChar).reverse.length := dropWhile_length_le _ _
    _ = (l.dropWhile isWsChar).length := List.length_reverse _
    _ ≤ l.length := dropWhile_length_le _ _

theorem chunkLoop_join_keepNonWs (m : ℕ) :
    ∀ (ss : List (List Char)) (cur : List Char),
      keepNonWs (chunkLoop m ss cur).flatten = keepNonWs (cur ++ ss.flatten) := by
  intro ss
  induction ss with
  | nil =>
    intro cur
    by_cases hc : cur.isEmpty
    · have : cur = [] := by simpa using hc
      subst this
      simp [chunkLoop]
    · simp [chunkLoop, hc]
  | cons s rest ih =>
    intro cur
    by_cases h1 : cur.length + s.length + 1 ≤ m
    · simp only [chunkLoop, if_pos h1]
      rw [ih, keepNonWs_append, keepNonWs_stripWs, keepNonWs_append,
        keepNonWs_ws_cons (by rfl), List.flatten_cons, keepNonWs_append,
        keepNonWs_append, List.append_assoc]
    · simp only [chunkLoop, if_neg h1, List.flatten_cons]
      rw [List.flatten_append, keepNonWs_append]
      have hcur : keepNonWs (if cur.isEmpty then [] else [cur]).flatten = keepNonWs cur := by
        by_cases hc : cur.isEmpty
        · have : cur = [] := by simpa using hc
          subst this
          simp
        · simp [hc]
      rw [hcur]
      by_cases h2 : m < s.length
      · simp only [if_pos h2]
        rw [List.flatten_append, keepNonWs_append]
        have hhs : (hardSplit m s).flatten = s := hardSplitAux_join m s.length s
        rw [hhs, ih]
        simp [keepNonWs_append, List.append_assoc]
      · simp only [if_neg h2]
        rw [ih]
        simp [keepNonWs_append, List.append_assoc]

theorem chunkText_join_keepNonWs (t : List Char) (m : ℕ) :
    keepNonWs (chunkText t m).flatten = keepNonWs t := by
  unfold chunkText
  by_cases h : t.length ≤ m
  · simp [h]
  · rw [if_neg h, chunkLoop_join_keepNonWs, List.nil_append]
    have := splitSentAux_join_keepNonWs t.length t []
    simpa [splitSentences] using this

theorem chunkLoop_length_le (m : ℕ) (hm : 0 < m) :
    ∀ (ss : List (List Char)) (cur : List Char), cur.length ≤ m →
      ∀ ch ∈ chunkLoop m ss cur, ch.length ≤ m := by
  intro ss
  induction ss with
  | nil =>
    intro cur hcur ch hch
    by_cases hc : cur.isEmpty <;> simp [chunkLoop, hc] at hch
    subst hch
    exact hcur
  | cons s rest ih =>
    intro cur hcur ch hch
    by_cases h1 : cur.length + s.length + 1 ≤ m
    · simp only [chunkLoop, if_pos h1] at hch
      refine ih _ ?_ ch hch
      calc (stripWs (cur ++ ' ' :: s)).length
          ≤ (cur ++ ' ' :: s).length := stripWs_length_le _
        _ = cur.length + (s.length + 1) := by simp [List.length_append]
        _ ≤ m := by omega
    · simp only [chunkLoop, if_neg h1, List.mem_append] at hch
      rcases hch with hch | hch
      · by_cases hc : cur.isEmpty <;> simp [hc] at hch
        subst hch
        exact hcur
      · by_cases h2 : m < s.length
        · simp only [if_pos h2, List.mem_append] at hch
          rcases hch with hch | hch
          · exact hardSplitAux_length_le m hm s.length s le_rfl ch hch
          · exact ih [] (by simp) ch hch
        · simp only [if_neg h2] at hch
          exact ih s (by omega) ch hch

theorem chunkText_ne_nil {t : List Char} {m : ℕ} (hm : 1 ≤ m) (ht : t ≠ []) :
    chunkText t m ≠ [] := by
  unfold chunkText
  by_cases h : t.length ≤ m
  · simp [h]
  · rw [if_neg h]
    by_cases hws : keepNonWs t = []
    · have hall : ∀ x ∈ t, isWsChar x = true := by
        intro x hx
        have := List.filter_eq_nil.mp hws x hx
        simpa using this
      have hsp : splitSentences t = [t] := by
        have := splitSentAux_all_ws t.length t [] (by simp) hall
        simpa [splitSentences] using this
      rw [hsp]
      have hlen : ¬ ([] : List Char).length + t.length + 1 ≤ m := by
        simp only [List.length_nil, Nat.zero_add]
        omega
      simp only [chunkLoop, if_neg hlen, List.isEmpty_nil, if_pos, List.nil_append]
      have h2 : m < t.length := by omega
      simp only [if_pos h2]
      intro hcontra
      exact hardSplit_ne_nil (m := m) ht (by simpa [chunkLoop] using hcontra)
    · intro hcontra
      have := chunkText_join_keepNonWs t m
      unfold chunkText at this
      rw [if_neg h] at this
      rw [hcontra] at this
      simp at this
      exact hws this.symm

/-! ## Claims C3 and C4: `_chunk_text` -/

/-- C3 counterexample: for `T = "ab.  cd"` (two spaces between the
sentences) and `maxChars = 5`, the chunks are `["ab.", "cd"]`, and no
choice of restoring a single joining space (or none) at each chunk
boundary reproduces `T`: one of the two original spaces is lost. -/
theorem claim_C3_counterexample :
    chunkText tC3 5 = ["ab.".data, "cd".data] ∧
      ¬ ∃ bs : List Bool, joinSel bs (chunkText tC3 5) = tC3 := by
  have hch : chunkText tC3 5 = ["ab.".data, "cd".data] := by decide
  have hch2 : chunkText tC3 5 = [['a', 'b', '.'], ['c', 'd']] := by decide
  refine ⟨hch, ?_⟩
  rintro ⟨bs, h⟩
  rw [hch2] at h
  rcases bs with _ | ⟨b, bs⟩
  · exact absurd h (by decide)
  · have hred : joinSel (b :: bs) [['a', 'b', '.'], ['c', 'd']]
        = ['a', 'b', '.'] ++ (if b then [' '] else []) ++ ['c', 'd'] := by
      cases bs <;> rfl
    rw [hred] at h
    cases b
    · exact absurd h (by decide)
    · exact absurd h (by decide)

/-- C3 (amended): chunking preserves every non-whitespace character in
order (the concatenation of the chunks has exactly the non-whitespace
content of `T`; whitespace at sentence boundaries is normalized by the
split/strip/join steps, which is why verbatim reproduction fails), and
for non-empty `T` the returned sequence is non-empty. -/
theorem claim_C3 (t : List Char) (m : ℕ) (hm : 1 ≤ m) :
    keepNonWs (chunkText t m).flatten = keepNonWs t ∧
      (t ≠ [] → chunkText t m ≠ []) := by
  exact ⟨chunkText_join_keepNonWs t m, fun ht => chunkText_ne_nil hm ht⟩

/-- C3 witness: the amended claim at `T = "ab"`, `maxChars = 1`. -/
theorem claim_C3_witness :
    keepNonWs (chunkText "ab".data 1).flatten = keepNonWs "ab".data ∧
      chunkText "ab".data 1 ≠ [] :=
  ⟨(claim_C3 "ab".data 1 (by decide)).1,
   (claim_C3 "ab".data 1 (by decide)).2 (by decide)⟩

/-- C4: `chunk(T, maxChars) = [T]` whenever `len(T) ≤ maxChars`, and every
returned chunk has length at most `maxChars` (stated for a positive
character budget; the source is only ever called with `maxChars = 500`). -/
theorem claim_C4 (t : List Char) (m : ℕ) (hm : 1 ≤ m) :
    (t.length ≤ m → chunkText t m = [t]) ∧
      ∀ c ∈ chunkText t m, c.length ≤ m := by
  constructor
  · intro h
    simp [chunkText, h]
  · intro c hc
    unfold chunkText at hc
    by_cases h : t.length ≤ m
    · rw [if_pos h] at hc
      simp only [List.mem_singleton] at hc
      subst hc
      exact h
    · rw [if_neg h] at hc
      exact chunkLoop_length_le m hm (splitSentences t) [] (by simp) c hc

/-- C4 witness: at `T = "ab.  cd"`, `maxChars = 500` (single chunk) and at
`maxChars = 5` (all chunks within budget). -/
theorem claim_C4_witness :
    chunkText tC3 500 = [tC3] ∧ ∀ c ∈ chunkText tC3 5, c.length ≤ 5 :=
  ⟨(claim_C4 tC3 500 (by decide)).1 (by decide),
   (claim_C4 tC3 5 (by decide)).2⟩

/-! ## Lemmas: window planning -/

theorem pyInt_natCast (e : ℕ) : pyInt ((e : ℕ) : ℚ) = e := by
  simp [pyInt]

theorem ceil_div_iff {a W : ℕ} (hW : 0 < W) (i : ℕ) :
    i < (a + W - 1) / W ↔ W * i < a := by
  rcases Nat.eq_zero_or_pos a with ha | ha
  · subst ha
    rw [Nat.zero_add, Nat.div_eq_of_lt (by omega)]
    omega
  · have h1 : a + W - 1 = (a - 1) + W := by omega
    rw [h1, Nat.add_div_right _ hW]
    constructor
    · intro h
      have h2 : i ≤ (a - 1) / W := Nat.lt_succ_iff.mp h
      have h3 : i * W ≤ a - 1 := (Nat.le_div_iff_mul_le hW).mp h2
      calc W * i = i * W := Nat.mul_comm _ _
        _ ≤ a - 1 := h3
        _ < a := by omega
    · intro h
      have h2 : i * W < a := by rw [Nat.mul_comm]; exact h
      have h3 : i * W ≤ a - 1 := by omega
      exact Nat.lt_succ_of_le ((Nat.le_div_iff_mul_le hW).mpr h3)

theorem pyRangeAux_length (stop step : ℕ) (hs : 0 < step) :
    ∀ (fuel cur : ℕ), stop - cur ≤ fuel →
      (pyRangeAux stop step fuel cur).length = (stop - cur + step - 1) / step := by
  intro fuel
  induction fuel with
  | zero =>
    intro cur h
    have h0 : stop - cur = 0 := Nat.le_zero.mp h
    rw [pyRangeAux, h0, Nat.zero_add, Nat.div_eq_of_lt (by omega)]
    rfl
  | succ fuel ih =>
    intro cur h
    by_cases hc : cur < stop
    · have hrw : pyRangeAux stop step (fuel + 1) cur
          = cur :: pyRangeAux stop step fuel (cur + step) := by
        rw [pyRangeAux, if_pos ⟨hs, hc⟩]
      rw [hrw, List.length_cons, ih (cur + step) (by omega)]
      by_cases hcase : stop - cur ≤ step
      · have e1 : stop - (cur + step) = 0 := by omega
        rw [e1, Nat.zero_add, Nat.div_eq_of_lt (by omega)]
        have e3 : stop - cur + step - 1 = (stop - cur - 1) + step := by omega
        rw [e3, Nat.add_div_right _ hs, Nat.div_eq_of_lt (by omega)]
      · have e1 : stop - (cur + step) + step - 1 = (stop - cur - 1 - step) + step := by
          omega
        rw [e1, Nat.add_div_right _ hs]
        have e2 : stop - cur + step - 1 = ((stop - cur - 1 - step) + step) + step := by
          omega
        rw [e2, Nat.add_div_right _ hs, Nat.add_div_right _ hs]
    · have h0 : stop - cur = 0 := by omega
      rw [pyRangeAux, h0, Nat.zero_add, Nat.div_eq_of_lt (by omega)]
      simp [hc]

theorem pyRangeAux_getElem (stop step : ℕ) (hs : 0 < step) :
    ∀ (fuel cur j : ℕ), stop - cur ≤ fuel →
      ∀ hj : j < (pyRangeAux stop step fuel cur).length,
        (pyRangeAux stop step fuel cur)[j] = cur + step * j := by
  intro fuel
  induction fuel with
  | zero =>
    intro cur j hfu hj
    rw [pyRangeAux] at hj
    simp at hj
  | succ fuel ih =>
    intro cur j hfu hj
    by_cases hc : cur < stop
    · have hrw : pyRangeAux stop step (fuel + 1) cur
          = cur :: pyRangeAux stop step fuel (cur + step) := by
        rw [pyRangeAux, if_pos ⟨hs, hc⟩]
      simp only [hrw] at hj ⊢
      cases j with
      | zero => simp
      | succ j =>
        rw [List.getElem_cons_succ]
        rw [ih (cur + step) j (by omega) (by simpa using hj)]
        ring
    · rw [pyRangeAux] at hj
      simp [hc] at hj

theorem winStarts_length (e W : ℕ) (hW : 0 < W) :
    (winStarts ((e : ℕ) : ℚ) W).length = (e + W - 1) / W := by
  unfold winStarts pyRange
  rw [pyInt_natCast, pyRangeAux_length e W hW e 0 (by omega), Nat.sub_zero]

theorem winStarts_getElem (e W : ℕ) (hW : 0 < W) (j : ℕ)
    (hj : j < (winStarts ((e : ℕ) : ℚ) W).length) :
    (winStarts ((e : ℕ) : ℚ) W)[j] = W * j := by
  have h0 : (winStarts ((e : ℕ) : ℚ) W)[j] = 0 + W * j := by
    unfold winStarts pyRange at hj ⊢
    simp only [pyInt_natCast] at hj ⊢
    exact pyRangeAux_getElem e W hW e 0 j (by omega) hj
  rw [h0, Nat.zero_add]

theorem winStarts_mem (e W : ℕ) (hW : 0 < W) (s : ℕ) :
    s ∈ winStarts ((e : ℕ) : ℚ) W ↔ ∃ k : ℕ, s = W * k ∧ s < e := by
  rw [List.mem_iff_getElem]
  constructor
  · rintro ⟨j, hj, hget⟩
    refine ⟨j, ?_, ?_⟩
    · rw [← hget, winStarts_getElem e W hW j hj]
    · rw [← hget, winStarts_getElem e W hW j hj]
      rw [winStarts_length e W hW] at hj
      exact (ceil_div_iff hW j).mp hj
  · rintro ⟨k, hk, hlt⟩
    have hj : k < (winStarts ((e : ℕ) : ℚ) W).length := by
      rw [winStarts_length e W hW]
      exact (ceil_div_iff hW k).mpr (hk ▸ hlt)
    exact ⟨k, hj, by rw [winStarts_getElem e W hW k hj, hk]⟩

theorem pyRangeAux_sum_q (e W : ℕ) (hW : 0 < W) :
    ∀ (fuel cur : ℕ), e - cur ≤ fuel →
      ((pyRangeAux e W fuel cur).map
        (fun s : ℕ => min (W : ℚ) ((e : ℚ) - (s : ℚ)))).sum = ((e - cur : ℕ) : ℚ) := by
  intro fuel
  induction fuel with
  | zero =>
    intro cur h
    have h0 : e - cur = 0 := Nat.le_zero.mp h
    rw [pyRangeAux, h0]
    simp
  | succ fuel ih =>
    intro cur h
    by_cases hc : cur < e
    · have hrw : pyRangeAux e W (fuel + 1) cur
          = cur :: pyRangeAux e W fuel (cur + W) := by
        rw [pyRangeAux, if_pos ⟨hW, hc⟩]
      rw [hrw, List.map_cons, List.sum_cons, ih (cur + W) (by omega)]
      by_cases hcase : W ≤ e - cur
      · have hmin : min (W : ℚ) ((e : ℚ) - (cur : ℚ)) = (W : ℚ) := by
          apply min_eq_left
          rw [show ((e : ℚ) - (cur : ℚ)) = ((e - cur : ℕ) : ℚ) from by
            rw [Nat.cast_sub hc.le]]
          exact_mod_cast hcase
        rw [hmin]
        have harith : W + (e - (cur + W)) = e - cur := by omega
        calc (W : ℚ) + ((e - (cur + W) : ℕ) : ℚ)
            = ((W + (e - (cur + W)) : ℕ) : ℚ) := by push_cast; ring
          _ = ((e - cur : ℕ) : ℚ) := by rw [harith]
      · have h0 : e - (cur + W) = 0 := by omega
        have hmin : min (W : ℚ) ((e : ℚ) - (cur : ℚ)) = (e : ℚ) - (cur : ℚ) := by
          apply min_eq_right
          rw [show ((e : ℚ) - (cur : ℚ)) = ((e - cur : ℕ) : ℚ) from by
            rw [Nat.cast_sub hc.le]]
          exact_mod_cast (by omega : e - cur ≤ W)
        rw [hmin, h0]
        simp [Nat.cast_sub hc.le]
    · have h0 : e - cur = 0 := by omega
      rw [pyRangeAux, h0]
      simp [hc]

theorem windows_length (e W : ℕ) (hW : 0 < W) :
    (windows ((e : ℕ) : ℚ) W).length = (e + W - 1) / W := by
  unfold windows
  rw [List.length_map, winStarts_length e W hW]

theorem windows_getElem (e W : ℕ) (hW : 0 < W) (j : ℕ)
    (hj : j < (windows ((e : ℕ) : ℚ) W).length) :
    (windows ((e : ℕ) : ℚ) W)[j] =
      (((W * j : ℕ) : ℚ), min (W : ℚ) (((e : ℕ) : ℚ) - ((W * j : ℕ) : ℚ))) := by
  unfold windows at hj ⊢
  simp only [List.getElem_map]
  rw [winStarts_getElem e W hW j (by simpa using hj)]

theorem windows_sum (e W : ℕ) (hW : 0 < W) :
    ((windows ((e : ℕ) : ℚ) W).map Prod.snd).sum = ((e : ℕ) : ℚ) := by
  unfold windows winStarts pyRange
  rw [List.map_map]
  simp only [pyInt_natCast]
  have hsum := pyRangeAux_sum_q e W hW e 0 (by omega)
  simpa using hsum

/-! ## Claims C1, C2, C6: segmentation plan, call count, truncation -/

theorem effD_half : effectiveDuration (101 / 2 : ℚ) 60 = 101 / 2 := by
  unfold effectiveDuration
  rw [if_neg (by norm_num)]

theorem pyInt_half : pyInt (101 / 2 : ℚ) = 50 := by
  unfold pyInt
  rw [show (101 / 2 : ℚ) = ((101 : ℤ) : ℚ) / ((2 : ℕ) : ℚ) from by norm_num]
  rw [Rat.floor_intCast_div_natCast]
  decide

theorem winStarts_half : winStarts (101 / 2 : ℚ) 25 = [0, 25] := by
  unfold winStarts pyRange
  rw [pyInt_half]
  decide

theorem windows_half : windows (101 / 2 : ℚ) 25 = [((0 : ℚ), 25), ((25 : ℚ), 25)] := by
  unfold windows
  rw [winStarts_half]
  simp only [List.map_cons, List.map_nil]
  norm_num [min_def]

theorem windows_42 : windows ((42 : ℕ) : ℚ) 25 = [((0 : ℚ), 25), ((25 : ℚ), 17)] := by
  unfold windows winStarts pyRange
  rw [pyInt_natCast]
  rw [show pyRangeAux 42 25 42 0 = [0, 25] from by decide]
  simp only [List.map_cons, List.map_nil]
  norm_num [min_def]

/-- C1 counterexample: at duration `D = 50.5`, `M = 60`, `W = 25` the
effective duration is `50.5 > 30`, yet the planned windows are
`[(0,25),(25,25)]`: their lengths sum to `50 ≠ 50.5`, and `50` — a
multiple of `25` below the effective duration — is not a window start
(the code plans from `int(duration)`, dropping the fractional tail). -/
theorem claim_C1_counterexample :
    (30 : ℚ) < effectiveDuration (101 / 2 : ℚ) 60 ∧
    effectiveDuration (101 / 2 : ℚ) 60 = 101 / 2 ∧
    ((windows (effectiveDuration (101 / 2 : ℚ) 60) 25).map Prod.snd).sum ≠
      effectiveDuration (101 / 2 : ℚ) 60 ∧
    ((50 : ℚ) = ((2 * 25 : ℕ) : ℚ) ∧
      (50 : ℚ) < effectiveDuration (101 / 2 : ℚ) 60) ∧
    (50 : ℚ) ∉ (windows (effectiveDuration (101 / 2 : ℚ) 60) 25).map Prod.fst := by
  refine ⟨?_, effD_half, ?_, ⟨by norm_num, ?_⟩, ?_⟩
  · rw [effD_half]
    norm_num
  · rw [effD_half, windows_half]
    norm_num
  · rw [effD_half]
    norm_num
  · rw [effD_half, windows_half]
    norm_num

/-- C1 (amended): for an integer effective duration `e = min D M > 30`
(always the case when the clip is truncated, since `M` is an integer) the
plan is as claimed: the window starts are exactly the multiples of `W`
below `e`; consecutive windows are contiguous (next start = start +
length, hence non-overlapping) with all but the last of width `W`; the
lengths sum to exactly `e`; the last window carries the remaining
duration; and the spec example `D=42, M=60, W=25` gives
`[(0,25),(25,17)]`.  For fractional durations the sum property fails
(see the counterexample). -/
theorem claim_C1 (D M W : ℕ) (hW : 0 < W) (h30 : 30 < min D M) :
    effectiveDuration ((D : ℕ) : ℚ) M = ((min D M : ℕ) : ℚ) ∧
    (∀ q : ℚ, q ∈ (windows ((min D M : ℕ) : ℚ) W).map Prod.fst ↔
      ∃ k : ℕ, q = ((W * k : ℕ) : ℚ) ∧ q < ((min D M : ℕ) : ℚ)) ∧
    (∀ i : ℕ, ∀ h1 : i + 1 < (windows ((min D M : ℕ) : ℚ) W).length,
      ((windows ((min D M : ℕ) : ℚ) W)[i + 1]).1 =
        ((windows ((min D M : ℕ) : ℚ) W)[i]).1 +
          ((windows ((min D M : ℕ) : ℚ) W)[i]).2 ∧
      ((windows ((min D M : ℕ) : ℚ) W)[i]).2 = (W : ℚ)) ∧
    ((windows ((min D M : ℕ) : ℚ) W).map Prod.snd).sum = ((min D M : ℕ) : ℚ) ∧
    (∀ hne : windows ((min D M : ℕ) : ℚ) W ≠ [],
      ((windows ((min D M : ℕ) : ℚ) W).getLast hne).2 =
        ((min D M : ℕ) : ℚ) - ((windows ((min D M : ℕ) : ℚ) W).getLast hne).1) ∧
    windows ((42 : ℕ) : ℚ) 25 = [((0 : ℚ), (25 : ℚ)), ((25 : ℚ), (17 : ℚ))] := by
  refine ⟨?_, ?_, ?_, windows_sum (min D M) W hW, ?_, windows_42⟩
  · unfold effectiveDuration
    by_cases hMD : M < D
    · rw [if_pos (by exact_mod_cast hMD), min_eq_right hMD.le]
    · rw [if_neg (by exact_mod_cast hMD), min_eq_left (by omega)]
  · intro q
    constructor
    · intro hq
      rcases List.mem_map.mp hq with ⟨w, hw, hqw⟩
      unfold windows at hw
      rcases List.mem_map.mp hw with ⟨s, hs, hws⟩
      rcases (winStarts_mem (min D M) W hW s).mp hs with ⟨k, hk, hlt⟩
      subst hk
      refine ⟨k, ?_, ?_⟩
      · rw [← hqw, ← hws]
      · rw [← hqw, ← hws]
        show ((W * k : ℕ) : ℚ) < ((min D M : ℕ) : ℚ)
        exact_mod_cast hlt
    · rintro ⟨k, hk, hlt⟩
      have hcast : W * k < min D M := by
        rw [hk] at hlt
        exact_mod_cast hlt
      have hmem : (W * k : ℕ) ∈ winStarts ((min D M : ℕ) : ℚ) W :=
        (winStarts_mem (min D M) W hW (W * k)).mpr ⟨k, rfl, hcast⟩
      refine List.mem_map.mpr
        ⟨(((W * k : ℕ) : ℚ),
          min (W : ℚ) (((min D M : ℕ) : ℚ) - ((W * k : ℕ) : ℚ))), ?_, hk.symm⟩
      unfold windows
      exact List.mem_map.mpr ⟨W * k, hmem, rfl⟩
  · intro i h1
    have hlen := windows_length (min D M) W hW
    have hi1 : i + 1 < (min D M + W - 1) / W := hlen ▸ h1
    have hfit : W * (i + 1) < min D M := (ceil_div_iff hW _).mp hi1
    have hi : i < (windows ((min D M : ℕ) : ℚ) W).length := by omega
    rw [windows_getElem (min D M) W hW (i + 1) h1,
      windows_getElem (min D M) W hW i hi]
    have hWi : W * i + W ≤ min D M := by rw [Nat.mul_succ] at hfit; omega
    have hle : W * i ≤ min D M := by omega
    have hmin : min (W : ℚ) (((min D M : ℕ) : ℚ) - ((W * i : ℕ) : ℚ)) = (W : ℚ) := by
      apply min_eq_left
      rw [show (((min D M : ℕ) : ℚ) - ((W * i : ℕ) : ℚ))
          = ((min D M - W * i : ℕ) : ℚ) from by rw [Nat.cast_sub hle]]
      exact_mod_cast (by omega : W ≤ min D M - W * i)
    constructor
    · simp only [hmin]
      push_cast [Nat.mul_succ]
      ring
    · simpa using hmin
  · intro hne
    have hlen0 : 0 < (windows ((min D M : ℕ) : ℚ) W).length :=
      List.length_pos.mpr hne
    have hlen := windows_length (min D M) W hW
    rw [List.getLast_eq_getElem]
    rw [windows_getElem (min D M) W hW _ (by omega)]
    have hn1 : (windows ((min D M : ℕ) : ℚ) W).length - 1 < (min D M + W - 1) / W := by
      omega
    have hlast : W * ((windows ((min D M : ℕ) : ℚ) W).length - 1) < min D M :=
      (ceil_div_iff hW _).mp hn1
    have hfull : ¬ W * ((min D M + W - 1) / W) < min D M := by
      intro hcontra
      exact absurd ((ceil_div_iff hW _).mpr hcontra) (by omega)
    have hle : W * ((windows ((min D M : ℕ) : ℚ) W).length - 1) ≤ min D M := hlast.le
    have hmin : min (W : ℚ)
        (((min D M : ℕ) : ℚ) - ((W * ((windows ((min D M : ℕ) : ℚ) W).length - 1) : ℕ) : ℚ))
        = ((min D M : ℕ) : ℚ) - ((W * ((windows ((min D M : ℕ) : ℚ) W).length - 1) : ℕ) : ℚ) := by
      apply min_eq_right
      rw [show (((min D M : ℕ) : ℚ) - ((W * ((windows ((min D M : ℕ) : ℚ) W).length - 1) : ℕ) : ℚ))
          = ((min D M - W * ((windows ((min D M : ℕ) : ℚ) W).length - 1) : ℕ) : ℚ) from by
        rw [Nat.cast_sub hle]]
      have harith : min D M - W * ((windows ((min D M : ℕ) : ℚ) W).length - 1) ≤ W := by
        have hfull2 : min D M ≤ W * ((min D M + W - 1) / W) := Nat.not_lt.mp hfull
        have hk1 : 0 < (min D M + W - 1) / W := by rw [hlen] at hlen0; exact hlen0
        have hsplit : W * ((min D M + W - 1) / W)
            = W * ((min D M + W - 1) / W - 1) + W := by
          rw [← Nat.mul_succ]
          congr 1
          omega
        rw [hlen]
        rw [hsplit] at hfull2
        omega
      exact_mod_cast harith
    simp only [hmin]

/-- C1 witness: the amended claim at `D = 42`, `M = 60`, `W = 25`: the
window lengths sum to the effective duration `42`, and the plan is
`[(0,25),(25,17)]`. -/
theorem claim_C1_witness :
    ((windows ((min 42 60 : ℕ) : ℚ) 25).map Prod.snd).sum = ((min 42 60 : ℕ) : ℚ) ∧
    windows ((42 : ℕ) : ℚ) 25 = [((0 : ℚ), (25 : ℚ)), ((25 : ℚ), (17 : ℚ))] :=
  ⟨(claim_C1 42 60 25 (by decide) (by decide)).2.2.2.1,
   (claim_C1 42 60 25 (by decide) (by decide)).2.2.2.2.2⟩

/-- C2 counterexample: for duration `D = 50.5`, `M = 60`, `W = 25` the
effective duration is `50.5 > 30` and `ceil(50.5 / 25) = 3`, yet the code
issues only 2 STT calls (`range(0, int(50.5), 25)` has two elements):
the claimed formula fails for non-integer effective durations. -/
theorem claim_C2_counterexample :
    (30 : ℚ) < effectiveDuration (101 / 2 : ℚ) 60 ∧
    transcribeCalls (101 / 2 : ℚ) 60 25 = 2 ∧
    ⌈effectiveDuration (101 / 2 : ℚ) 60 / (25 : ℚ)⌉ = 3 := by
  refine ⟨?_, ?_, ?_⟩
  · rw [effD_half]
    norm_num
  · unfold transcribeCalls
    rw [effD_half, if_neg (by norm_num), winStarts_half]
    rfl
  · rw [effD_half]
    rw [Int.ceil_eq_iff]
    constructor <;> norm_num

/-- C2 (amended): `transcribe_audio` issues exactly one STT call when the
effective duration is ≤ 30, and exactly `⌈int(effectiveDuration) / W⌉`
calls (computed as `(⌊effectiveDuration⌋ + W - 1) / W` in integer
arithmetic) when it is > 30: the duration is truncated to an integer by
`int(...)` before window planning, so the count equals
`ceil(effectiveDuration / W)` only for integer effective durations (see
the counterexample). -/
theorem claim_C2 (D : ℚ) (M W : ℕ) (hW : 0 < W) :
    (effectiveDuration D M ≤ 30 → transcribeCalls D M W = 1) ∧
    (30 < effectiveDuration D M →
      transcribeCalls D M W = (pyInt (effectiveDuration D M) + W - 1) / W) := by
  constructor
  · intro h
    unfold transcribeCalls
    rw [if_pos h]
  · intro h
    unfold transcribeCalls
    rw [if_neg (not_le.mpr h)]
    unfold winStarts pyRange
    rw [pyRangeAux_length (pyInt (effectiveDuration D M)) W hW _ 0 (by omega),
      Nat.sub_zero]

/-- C2 witness: at `D = 42`, `M = 60`, `W = 25` the chunked path issues
`(42 + 25 - 1) / 25 = 2` calls. -/
theorem claim_C2_witness :
    transcribeCalls ((42 : ℕ) : ℚ) 60 25
      = (pyInt (effectiveDuration ((42 : ℕ) : ℚ) 60) + 25 - 1) / 25 :=
  (claim_C2 ((42 : ℕ) : ℚ) 60 25 (by decide)).2 (by
    unfold effectiveDuration
    rw [if_neg (by exact_mod_cast (by omega : ¬ (60 : ℕ) < 42))]
    exact_mod_cast (by omega : (30 : ℕ) < 42))

/-- C6: the result's `truncated` flag is true exactly when the probed
duration exceeds the configured maximum (on both the direct and the
chunked path), the effective duration equals `min M D`, and both the
short-clip branch decision and the window count are functions of that
effective duration. -/
theorem claim_C6 (oracle : ℕ → SttResp) (D : ℚ) (M W : ℕ) (hint : List Char) :
    ((transcribe_audio oracle D M W hint).truncated = true ↔ (M : ℚ) < D) ∧
    effectiveDuration D M = min ((M : ℕ) : ℚ) D ∧
    transcribeCalls D M W =
      (if effectiveDuration D M ≤ 30 then 1
       else (winStarts (effectiveDuration D M) W).length) := by
  refine ⟨?_, ?_, rfl⟩
  · unfold transcribe_audio
    by_cases h : effectiveDuration D M ≤ 30 <;>
      simp [h, decide_eq_true_iff]
  · unfold effectiveDuration
    by_cases h : (M : ℚ) < D
    · rw [if_pos h, min_eq_left h.le]
    · rw [if_neg h, min_eq_right (not_lt.mp h)]

/-! ## Claims C5 and C10: chunked-path reassembly and language policy -/

theorem truthyOpt_some {o : Option (List Char)} (h : truthyOpt o = true) :
    ∃ v, o = some v ∧ v ≠ [] := by
  cases o with
  | none => simp [truthyOpt] at h
  | some v =>
    refine ⟨v, rfl, ?_⟩
    simpa [truthyOpt] using h

theorem firstTruthy_spec :
    ∀ L : List (Option (List Char)),
      firstTruthy L = none ∨ ∃ v, firstTruthy L = some v ∧ v ≠ [] := by
  intro L
  induction L with
  | nil => left; rfl
  | cons o rest ih =>
    by_cases h : truthyOpt o = true
    · rcases truthyOpt_some h with ⟨v, hv, hne⟩
      right
      exact ⟨v, by rw [firstTruthy, if_pos h, hv], hne⟩
    · rw [firstTruthy, if_neg h]
      exact ih

theorem chunkFold_fst (oracle : ℕ → SttResp) :
    ∀ (l : List ℕ) (ts : List (List Char)) (dl : Option (List Char)),
      (chunkFold oracle l ts dl).1
        = ts ++ (l.map (fun i => (oracle i).transcript.getD [])).filter
            (fun t => !t.isEmpty) := by
  intro l
  induction l with
  | nil =>
    intro ts dl
    simp [chunkFold]
  | cons i rest ih =>
    intro ts dl
    simp only [chunkFold]
    rw [ih]
    by_cases h : ((oracle i).transcript.getD []).isEmpty
    · simp [h]
    · simp [h, List.append_assoc]

theorem chunkFold_snd (oracle : ℕ → SttResp) :
    ∀ (l : List ℕ) (ts : List (List Char)) (dl : Option (List Char)),
      (chunkFold oracle l ts dl).2
        = if truthyOpt dl then dl
          else
            match firstTruthy (l.map (fun i => (oracle i).language_code)) with
            | some v => some v
            | none => dl := by
  intro l
  induction l with
  | nil =>
    intro ts dl
    by_cases h : truthyOpt dl = true <;> simp [chunkFold, firstTruthy, h]
  | cons i rest ih =>
    intro ts dl
    simp only [chunkFold, List.map_cons]
    rw [ih]
    by_cases hdl : truthyOpt dl = true
    · simp only [hdl, Bool.not_true, Bool.false_and, Bool.false_eq_true, if_neg,
        not_false_iff, if_pos]
    · by_cases hl : truthyOpt (oracle i).language_code = true
      · rcases truthyOpt_some hl with ⟨v, hv, _⟩
        simp only [hdl, hl, Bool.not_false, Bool.true_and, if_pos, if_true]
        rw [firstTruthy, if_pos hl, hv]
        simp [truthyOpt_some hl, hv, truthyOpt]
      · simp only [hdl, hl, Bool.not_false, Bool.true_and, if_neg, Bool.false_eq_true,
          not_false_iff]
        rw [firstTruthy, if_neg hl]

/-- C5: on the chunked path (effective duration > 30) the result
transcript is the single-space join, in ascending window order, of
exactly the non-empty per-window transcripts, and the result language is
the first truthy per-window detected language (later detections
discarded), falling back to the caller's hint when no window reports
one. -/
theorem claim_C5 (oracle : ℕ → SttResp) (D : ℚ) (M W : ℕ) (hint : List Char)
    (h30 : 30 < effectiveDuration D M) :
    (transcribe_audio oracle D M W hint).transcript
      = List.intercalate [' ']
          ((windowTranscripts oracle
              (winStarts (effectiveDuration D M) W).length).filter
            (fun t => !t.isEmpty)) ∧
    (transcribe_audio oracle D M W hint).language_code
      = (match firstTruthy
            ((List.range (winStarts (effectiveDuration D M) W).length).map
              (fun i => (oracle i).language_code)) with
        | some v => v
        | none => hint) := by
  unfold transcribe_audio
  rw [if_neg (not_le.mpr h30)]
  constructor
  · show List.intercalate [' ']
        (chunkFold oracle
          (List.range (winStarts (effectiveDuration D M) W).length) [] none).1 = _
    rw [chunkFold_fst]
    rfl
  · show orElseHint
        (chunkFold oracle
          (List.range (winStarts (effectiveDuration D M) W).length) [] none).2 hint = _
    rw [chunkFold_snd]
    simp only [truthyOpt, Bool.false_eq_true, if_neg, not_false_iff]
    rcases firstTruthy_spec
        ((List.range (winStarts (effectiveDuration D M) W).length).map
          (fun i => (oracle i).language_code)) with h | ⟨v, hv, hne⟩
    · rw [h]
      rfl
    · rw [hv]
      simp [orElseHint, hne]

/-- C5 witness: a two-window clip (`D = 42`, `M = 60`, `W = 25`) with a
uniform oracle: the transcript is the space-join `"a a"` and the language
is the first detected `"en"`. -/
theorem claim_C5_witness :
    (transcribe_audio oracleC5 42 60 25 ['h']).transcript = ['a', ' ', 'a'] ∧
    (transcribe_audio oracleC5 42 60 25 ['h']).language_code = ['e', 'n'] := by
  have h := claim_C5 oracleC5 42 60 25 ['h'] (by
    unfold effectiveDuration
    rw [if_neg (by norm_num)]
    norm_num)
  refine ⟨?_, ?_⟩
  · rw [h.1]
    decide
  · rw [h.2]
    decide

/-- C10: the detected language may come from a window whose transcript is
empty: with `D = 42`, `M = 60`, `W = 25` and an oracle whose window 0
returns an empty transcript but language `"hi-IN"`, and whose window 1
returns `"hello"` with language `"ta-IN"`, the result transcript is
`"hello"` (window 0 contributes nothing) while the result language is
`"hi-IN"` — neither window 1's detection nor the caller's hint. -/
theorem claim_C10 :
    (oracleC10 0).transcript = some [] ∧
    (transcribe_audio oracleC10 42 60 25 "en-IN".data).transcript = "hello".data ∧
    (transcribe_audio oracleC10 42 60 25 "en-IN".data).language_code = "hi-IN".data ∧
    "hi-IN".data ≠ "ta-IN".data ∧ "hi-IN".data ≠ "en-IN".data := by
  refine ⟨by decide, by decide, by decide, by decide, by decide⟩

/-! ## Claim C7: analysis normalization -/

/-- C7 counterexample: the raw output `{"foo": 1}` parses, so `normalize`
returns the parsed one-field object — which is neither the six-field
structured record nor the single-field `raw_analysis` fallback: parse
success does not imply the six-field shape (the code never validates the
fields). -/
theorem claim_C7_counterexample :
    analyse_normalize c7in = Json.jobj [("foo".data, Json.jnum 1)] ∧
    isSixField (analyse_normalize c7in) = false ∧
    isFallback (analyse_normalize c7in) = false := by
  refine ⟨by rfl, by decide, by decide⟩

/-- C7 (amended): `normalize` is total (never raises) and produces
exactly one of two results, with no partial mix: the parsed JSON value of
the fence-stripped text when parsing succeeds (with no validation that it
is the six-field record — see the counterexample), or the single-field
fallback object carrying the non-fence-stripped raw text when parsing
fails. -/
theorem claim_C7 (content : List Char) :
    (∃ j, parseJson (stripFences (stripWs content)) = some j ∧
      analyse_normalize content = j) ∨
    (parseJson (stripFences (stripWs content)) = none ∧
      analyse_normalize content
        = Json.jobj [("raw_analysis".data, Json.jstr (stripWs content))]) := by
  rcases h : parseJson (stripFences (stripWs content)) with _ | j
  · right
    refine ⟨rfl, ?_⟩
    unfold analyse_normalize
    rw [h]
  · left
    refine ⟨j, rfl, ?_⟩
    unfold analyse_normalize
    rw [h]

/-! ## Claim C8: speech synthesis -/

theorem ttsLoop_fail (tts : List Char → Option (List ℕ)) :
    ∀ (l : List (List Char)) (segs : List (List ℕ)),
      (∃ c ∈ l, tts c = none) → ttsLoop tts l segs = none := by
  intro l
  induction l with
  | nil =>
    intro segs h
    rcases h with ⟨c, hc, _⟩
    exact absurd hc (List.not_mem_nil c)
  | cons c0 rest ih =>
    intro segs h
    cases hc0 : tts c0 with
    | none => simp [ttsLoop, hc0]
    | some a =>
      rcases h with ⟨c, hc, hfail⟩
      rcases List.mem_cons.mp hc with rfl | hc
      · exact absurd hfail (by simp [hc0])
      · simp only [ttsLoop, hc0]
        exact ih _ ⟨c, hc, hfail⟩

theorem ttsLoop_ok (tts : List Char → Option (List ℕ)) :
    ∀ (l : List (List Char)) (segs : List (List ℕ)),
      (∀ c ∈ l, (tts c).isSome) →
      ttsLoop tts l segs = some (segs ++ l.filterMap tts) := by
  intro l
  induction l with
  | nil =>
    intro segs _
    simp [ttsLoop]
  | cons c0 rest ih =>
    intro segs h
    rcases Option.isSome_iff_exists.mp (h c0 (List.mem_cons_self _ _)) with ⟨a, ha⟩
    simp only [ttsLoop, ha, List.filterMap_cons]
    rw [ih _ (fun c hc => h c (List.mem_cons_of_mem _ hc))]
    simp [List.append_assoc]

theorem foldl_append_flatten :
    ∀ (rest : List (List ℕ)) (s : List ℕ),
      rest.foldl (fun a b => a ++ b) s = s ++ rest.flatten := by
  intro rest
  induction rest with
  | nil => intro s; simp
  | cons a l ih =>
    intro s
    simp only [List.foldl_cons, ih, List.flatten_cons, List.append_assoc]

/-- C8: if the TTS capability fails on any chunk, the failure propagates
and nothing is written to the output path (the model's `none`: the only
write in the source is the final export, reached only after every chunk
succeeded); on success the full chunk-order concatenation is written and
the output path is returned. -/
theorem claim_C8 (tts : List Char → Option (List ℕ)) (text output_path : List Char) :
    ((∃ c ∈ chunkText text 500, tts c = none) →
      text_to_speech tts text output_path = none) ∧
    ((∀ c ∈ chunkText text 500, (tts c).isSome) →
      text_to_speech tts text output_path
        = some (output_path, ((chunkText text 500).filterMap tts).flatten)) := by
  constructor
  · intro h
    unfold text_to_speech
    rw [ttsLoop_fail tts _ [] h]
  · intro h
    have hne : chunkText text 500 ≠ [] := by
      by_cases ht : text = []
      · subst ht
        simp [chunkText]
      · exact chunkText_ne_nil (by norm_num) ht
    unfold text_to_speech
    rw [ttsLoop_ok tts _ [] h, List.nil_append]
    rcases hch : chunkText text 500 with _ | ⟨c0, crest⟩
    · exact absurd hch hne
    · rcases Option.isSome_iff_exists.mp
        (h c0 (by rw [hch]; exact List.mem_cons_self _ _)) with ⟨a0, ha0⟩
      simp only [List.filterMap_cons, ha0]
      rw [foldl_append_flatten]
      simp [List.flatten_cons]

/-- C8 witness: with an always-failing TTS nothing is produced for
`"hi"`; with a TTS returning the one-byte segment `[7]` the written
audio is exactly that segment and the path is returned. -/
theorem claim_C8_witness :
    text_to_speech (fun _ => none) "hi".data ['o'] = none ∧
    text_to_speech (fun _ => some [7]) "hi".data ['o'] = some (['o'], [7]) := by
  constructor
  · exact (claim_C8 (fun _ => none) "hi".data ['o']).1 ⟨"hi".data, by decide, rfl⟩
  · have h := (claim_C8 (fun _ => some [7]) "hi".data ['o']).2 (fun c _ => rfl)
    rw [h]
    decide

/-! ## Claim C9: temporary-file lifecycle -/

theorem chunkLoopFS_files (w : STTWorld) :
    ∀ (l : List ℕ) (fs : List TFile),
      ∃ cs : List TFile, (chunkLoopFS w l fs).2 = fs ++ cs ∧
        ∀ f ∈ cs, ∃ i, f = TFile.chunkf i := by
  intro l
  induction l with
  | nil =>
    intro fs
    exact ⟨[], by simp [chunkLoopFS], by simp⟩
  | cons i rest ih =>
    intro fs
    by_cases h1 : w.extractOk i
    · by_cases h2 : w.sttOk i
      · rcases ih (fs ++ [TFile.chunkf i]) with ⟨cs, hcs, hall⟩
        refine ⟨TFile.chunkf i :: cs, ?_, ?_⟩
        · simp only [chunkLoopFS, h1, h2, Bool.not_true, Bool.false_eq_true, if_neg,
            not_false_iff]
          rw [hcs, List.append_assoc]
          rfl
        · intro f hf
          rcases List.mem_cons.mp hf with rfl | hf
          · exact ⟨i, rfl⟩
          · exact hall f hf
      · refine ⟨[TFile.chunkf i], ?_, by simp⟩
        simp [chunkLoopFS, h1, h2]
    · refine ⟨[TFile.chunkf i], ?_, by simp⟩
      simp [chunkLoopFS, h1]

/-- C9: for every failure behavior of the external calls (trim failure,
per-window extraction failure, per-window STT failure) and every input,
no temporary file survives `transcribe_audio`: the trimmed clip is
removed by the `finally` unlink (`missing_ok=True`, modelled as a total
removal that cannot raise) and the per-window excerpts are removed by the
`TemporaryDirectory` exit on every path. -/
theorem claim_C9 (w : STTWorld) (D : ℚ) (M W : ℕ) :
    (transcribe_fs w D M W).2 = [] := by
  unfold transcribe_fs
  by_cases h1 : (decide ((M : ℚ) < D) && !w.trimOk) = true
  · simp [h1]
  · by_cases h2 : effectiveDuration D M ≤ 30
    · by_cases h3 : (M : ℚ) < D
      · simp only [h1, h2, h3]
        simp
        intro a ha
        split at ha <;> simpa using ha
      · simp [h1, h2, h3]
    · rcases chunkLoopFS_files w
          (List.range (winStarts (effectiveDuration D M) W).length)
          (if (M : ℚ) < D then [TFile.trimmed] else []) with ⟨cs, hcs, hall⟩
      simp only [h1, h2, Bool.false_eq_true, if_neg, not_false_iff, withTmpDir, hcs]
      rw [List.filter_append]
      have hcs0 : cs.filter
          (fun f => match f with | TFile.chunkf _ => false | _ => true) = [] := by
        apply List.filter_eq_nil.mpr
        intro f hf
        rcases hall f hf with ⟨i, rfl⟩
        simp
      rw [hcs0, List.append_nil]
      by_cases h3 : (M : ℚ) < D <;> simp [h3]
